import Mathlib

set_option maxRecDepth 1000000

/-!
Verification of the article-selection pipeline of `chatworks.py`
(repository `ai-news-chatwork`).

The development shallowly embeds the pure core of the script:

* `normalize_title` / `is_similar_content` (fuzzy duplicate detection,
  including a faithful embedding of CPython `difflib.SequenceMatcher.ratio`),
* `get_article_category` (keyword-count classifier),
* `calculate_multi_category_score` (composite scoring),
* the selection pipeline of `fetch_multi_category_news`
  (stable descending sort by score, greedy dedup/per-source-cap pass,
  category backfill pass).

Feed fetching/parsing and the Chatwork HTTP calls are I/O and are not
modelled; the selection pipeline takes the ingested article list as input.
-/

/-- The article record built during ingestion (`chatworks.py` lines 316-323
and 345-352).  All fields the selection pipeline reads are present. -/
structure Article where
  title : String
  link : String
  source : String
  tier : String
  category : String
  feed_type : String
deriving DecidableEq, Repr

/-! ### Character classes used by `normalize_title` (lines 465-471) -/

/-- Characters matched by the first regex of `normalize_title`,
`[　-〿！-／：-＠［-｀｛-･]`. -/
def inPunctRange (c : Char) : Bool :=
  decide ((0x3000 ≤ c.toNat ∧ c.toNat ≤ 0x303f) ∨
    (0xff01 ≤ c.toNat ∧ c.toNat ≤ 0xff0f) ∨
    (0xff1a ≤ c.toNat ∧ c.toNat ≤ 0xff20) ∨
    (0xff3b ≤ c.toNat ∧ c.toNat ≤ 0xff40) ∨
    (0xff5b ≤ c.toNat ∧ c.toNat ≤ 0xff65))

/-- Characters matched by the second regex `[0-9０-９]+`: ASCII digits and
full-width digits U+FF10-U+FF19. -/
def isDigitChar (c : Char) : Bool :=
  decide ((0x30 ≤ c.toNat ∧ c.toNat ≤ 0x39) ∨
    (0xff10 ≤ c.toNat ∧ c.toNat ≤ 0xff19))

/-- Characters matched by Python `\s` on `str` (and stripped by
`str.strip`): exactly the code points CPython treats as whitespace. -/
def isPySpace (c : Char) : Bool :=
  decide ((0x09 ≤ c.toNat ∧ c.toNat ≤ 0x0d) ∨
    (0x1c ≤ c.toNat ∧ c.toNat ≤ 0x1f) ∨
    c.toNat = 0x20 ∨ c.toNat = 0x85 ∨ c.toNat = 0xa0 ∨ c.toNat = 0x1680 ∨
    (0x2000 ≤ c.toNat ∧ c.toNat ≤ 0x200a) ∨
    c.toNat = 0x2028 ∨ c.toNat = 0x2029 ∨ c.toNat = 0x202f ∨
    c.toNat = 0x205f ∨ c.toNat = 0x3000)

/-- Python `str.lower`, modelled by its simple per-character lowercase
mapping on ASCII letters, Latin-1 capitals (except `×` U+00D7) and
full-width Latin capitals U+FF21-U+FF3A; every other character is returned
unchanged.  No claim in this development depends on case mappings outside
these ranges. -/
def pyLowerChar (c : Char) : Char :=
  if 0x41 ≤ c.toNat ∧ c.toNat ≤ 0x5a then Char.ofNat (c.toNat + 0x20)
  else if 0xc0 ≤ c.toNat ∧ c.toNat ≤ 0xde ∧ c.toNat ≠ 0xd7 then
    Char.ofNat (c.toNat + 0x20)
  else if 0xff21 ≤ c.toNat ∧ c.toNat ≤ 0xff3a then Char.ofNat (c.toNat + 0x20)
  else c

/-- Python `str.lower` over a whole string (character-wise, see
`pyLowerChar`). -/
def pyLower (s : List Char) : List Char :=
  s.map pyLowerChar

/-- Python `str.strip`: drop leading and trailing whitespace. -/
def pyStrip (s : List Char) : List Char :=
  ((s.dropWhile isPySpace).reverse.dropWhile isPySpace).reverse

/-- `normalize_title` (lines 465-471): delete the punctuation/symbol
ranges, delete ASCII and full-width digits, delete whitespace, lower-case,
strip.  `re.sub(pattern, '', s)` with a single-character class deletes
exactly the matching characters, i.e. filters the string. -/
def normalize_title (title : String) : String :=
  let step1 := title.data.filter (fun c => !(inPunctRange c))
  let step2 := step1.filter (fun c => !(isDigitChar c))
  let step3 := step2.filter (fun c => !(isPySpace c))
  ⟨pyStrip (pyLower step3)⟩

/-! ### `difflib.SequenceMatcher` (CPython stdlib), as used by
`is_similar_content` with `isjunk=None` and default `autojunk=True`.

`SequenceMatcher(None, a, b).ratio()` is `2*M / (len a + len b)` where `M`
is the total size of the matching blocks found by recursively applying
`find_longest_match`.  With `isjunk=None` the junk set is empty, and
autojunk only removes "popular" entries from the `b2j` index when
`len b ≥ 200`. -/

/-- The `b2j` index of `SequenceMatcher.__chain_b`: the ascending list of
positions of `c` in `b`; when `len b ≥ 200`, characters occurring more
than `len b / 100 + 1` times are "popular" and their entry is deleted. -/
def b2jFun (b : List Char) (c : Char) : List Nat :=
  let js := (List.range b.length).filter (fun j => b.getD j ' ' == c)
  if b.length ≥ 200 ∧ js.length > b.length / 100 + 1 then [] else js

/-- A matching block `(i, j, size)`: `a[i:i+size] == b[j:j+size]`. -/
structure MatchBlock where
  i : Nat
  j : Nat
  size : Nat
deriving DecidableEq, Repr

/-- Lookup with default 0 in the `j2len` association list. -/
def lookupD (m : List (Nat × Nat)) (k : Nat) : Nat :=
  match m.find? (fun p => p.1 == k) with
  | some p => p.2
  | none => 0

/-- One inner iteration of `find_longest_match`'s main loop: process the
positions `js` of `a[i]` in `b` (already restricted to `[blo, bhi)`),
threading the new `j2len` row and the current best block.  `k` is
`j2len.get(j-1, 0) + 1`, where the Python key `j-1` for `j = 0` is `-1`
and hence absent. -/
def flmRow (j2len : List (Nat × Nat)) (i : Nat) :
    List Nat → MatchBlock → List (Nat × Nat) → MatchBlock × List (Nat × Nat)
  | [], best, newRow => (best, newRow)
  | j :: js, best, newRow =>
    let k := if j = 0 then 1 else lookupD j2len (j - 1) + 1
    let best' := if k > best.size then ⟨i + 1 - k, j + 1 - k, k⟩ else best
    flmRow j2len i js best' (newRow ++ [(j, k)])

/-- The main loop of `find_longest_match` over rows `i ∈ [alo, ahi)`.
`a[i]`'s positions in `b` are filtered to `j ≥ blo` (`continue`) and cut
at the first `j ≥ bhi` (`break`; the position list is ascending). -/
def flmRows (a : List Char) (b2j : Char → List Nat) (blo bhi : Nat) :
    List Nat → MatchBlock → List (Nat × Nat) → MatchBlock
  | [], best, _ => best
  | i :: is, best, j2len =>
    let js := ((b2j (a.getD i ' ')).filter (fun j => blo ≤ j)).takeWhile
      (fun j => j < bhi)
    let res := flmRow j2len i js best []
    flmRows a b2j blo bhi is res.1 res.2

/-- The first extension loop of `find_longest_match` (the junk set is
empty, so the junk condition is vacuous and the remaining two loops are
no-ops).  Fuel `m.i` bounds the iterations exactly: the loop decrements
`besti` while `besti > alo ≥ 0`. -/
def extendFront (a b : List Char) (alo blo : Nat) :
    Nat → MatchBlock → MatchBlock
  | 0, m => m
  | fuel + 1, m =>
    if alo < m.i ∧ blo < m.j ∧ a.getD (m.i - 1) ' ' == b.getD (m.j - 1) ' '
    then extendFront a b alo blo fuel ⟨m.i - 1, m.j - 1, m.size + 1⟩
    else m

/-- The second extension loop of `find_longest_match`: grow the block to
the right while characters match.  Fuel `ahi` bounds the iterations
exactly. -/
def extendBack (a b : List Char) (ahi bhi : Nat) :
    Nat → MatchBlock → MatchBlock
  | 0, m => m
  | fuel + 1, m =>
    if m.i + m.size < ahi ∧ m.j + m.size < bhi ∧
        a.getD (m.i + m.size) ' ' == b.getD (m.j + m.size) ' '
    then extendBack a b ahi bhi fuel ⟨m.i, m.j, m.size + 1⟩
    else m

/-- `SequenceMatcher.find_longest_match` on the region
`a[alo:ahi] × b[blo:bhi]` (no junk). -/
def find_longest_match (a b : List Char) (b2j : Char → List Nat)
    (alo ahi blo bhi : Nat) : MatchBlock :=
  let best := flmRows a b2j blo bhi (List.range' alo (ahi - alo)) ⟨alo, blo, 0⟩ []
  let best := extendFront a b alo blo best.i best
  extendBack a b ahi bhi ahi best

/-- Total size of the matching blocks of `get_matching_blocks`, computed
by the recursive region decomposition (the queue order does not affect the
total).  The fuel strictly exceeds the recursion depth: every recursive
call shrinks `(ahi - alo) + (bhi - blo)` by at least 2. -/
def matchesTotal (a b : List Char) (b2j : Char → List Nat) :
    Nat → Nat → Nat → Nat → Nat → Nat
  | 0, _, _, _, _ => 0
  | fuel + 1, alo, ahi, blo, bhi =>
    let m := find_longest_match a b b2j alo ahi blo bhi
    if m.size = 0 then 0
    else
      m.size + matchesTotal a b b2j fuel alo m.i blo m.j +
        matchesTotal a b b2j fuel (m.i + m.size) ahi (m.j + m.size) bhi

/-- The total matched size `M` for the full strings. -/
def matchesFor (a b : List Char) : Nat :=
  matchesTotal a b (b2jFun b) (a.length + b.length + 1) 0 a.length 0 b.length

/-- `SequenceMatcher(None, a, b).ratio()` as an exact rational:
`2*M / (len a + len b)`, and 1.0 when both strings are empty
(`difflib._calculate_ratio`). -/
def ratio (a b : List Char) : ℚ :=
  if a.length + b.length = 0 then 1
  else (2 * matchesFor a b : ℚ) / (a.length + b.length : ℚ)

/-- `is_similar_content` (lines 473-482) with the default threshold 0.8:
normalize both titles; if either normalized title is shorter than 10
characters require exact equality, otherwise compare the ratio with 0.8.
The float comparison `2.0*M/(la+lb) >= 0.8` is modelled by its exact
rational form `5 * (2*M) ≥ 4 * (la + lb)`; for the string lengths
representable here the rounded float comparison agrees with the exact one
(the two sides differ by at least `1/(5*(la+lb))` whenever they differ at
all, far above double-precision rounding error). -/
def is_similar_content (title1 title2 : String) : Bool :=
  let norm1 := (normalize_title title1).data
  let norm2 := (normalize_title title2).data
  if norm1.length < 10 ∨ norm2.length < 10 then norm1 == norm2
  else 5 * matchesFor norm1 norm2 ≥ 2 * (norm1.length + norm2.length)

/-! ### `get_article_category` (lines 182-262) -/

/-- `needle` is a prefix of `hay` (character lists). -/
def isPrefixList : List Char → List Char → Bool
  | [], _ => true
  | _ :: _, [] => false
  | c :: cs, d :: ds => c == d && isPrefixList cs ds

/-- Python substring containment `needle in hay`. -/
def strIn (needle : List Char) : List Char → Bool
  | [] => needle.isEmpty
  | d :: ds => isPrefixList needle (d :: ds) || strIn needle ds

/-- The `ai` keyword list of `category_keywords` (lines 188-198). -/
def ai_keywords : List String :=
  ["ai", "ＡＩ", "人工知能", "機械学習", "深層学習", "ディープラーニング",
   "生成ai", "生成ＡＩ", "大規模言語モデル", "llm", "生成型ai", "ジェネレーティブai",
   "chatgpt", "チャットgpt", "gpt", "claude", "gemini", "bard", "copilot",
   "mistral", "llama", "palm", "dall-e", "midjourney", "stable diffusion",
   "ai活用", "ai導入", "ai戦略", "aiソリューション", "ai開発", "ai実装"]

/-- The `iot` keyword list (lines 200-209). -/
def iot_keywords : List String :=
  ["iot", "ＩｏＴ", "モノのインターネット", "internet of things",
   "センサー", "スマートデバイス", "エッジコンピューティング", "edge computing",
   "m2m", "産業iot", "iiot", "スマートシティ", "コネクテッド", "接続",
   "iot活用", "iotプラットフォーム", "iotセキュリティ", "iotソリューション",
   "iot開発", "デバイス管理", "センサーネットワーク", "組み込み"]

/-- The `cloud` keyword list (lines 211-223). -/
def cloud_keywords : List String :=
  ["クラウド", "cloud", "クラウドコンピューティング", "cloud computing",
   "aws", "amazon web services", "azure", "microsoft azure", "gcp", "google cloud",
   "クラウドネイティブ", "マルチクラウド", "ハイブリッドクラウド",
   "paas", "saas", "iaas", "faas", "serverless", "サーバーレス",
   "kubernetes", "docker", "コンテナ", "k8s", "container",
   "クラウド移行", "クラウド導入", "クラウド運用", "クラウド最適化"]

/-- The `security` keyword list (lines 225-237). -/
def security_keywords : List String :=
  ["セキュリティ", "security", "サイバーセキュリティ", "cybersecurity",
   "情報セキュリティ", "ネットワークセキュリティ", "クラウドセキュリティ",
   "ゼロトラスト", "zero trust", "vpn", "ファイアウォール", "firewall",
   "暗号化", "認証", "多要素認証", "mfa", "sso", "シングルサインオン",
   "脆弱性", "サイバー攻撃", "マルウェア", "ランサムウェア", "ウイルス",
   "セキュリティ対策", "セキュリティ運用", "インシデント対応", "ペネトレーションテスト",
   "アクセス制御", "権限管理", "ログ監視", "セキュリティ監査"]

/-- The `dx` keyword list (lines 239-248). -/
def dx_keywords : List String :=
  ["dx", "ＤＸ", "デジタルトランスフォーメーション", "digital transformation",
   "デジタル化", "デジタル推進", "デジタルシフト", "it化",
   "業務効率化", "自動化", "rpa", "ワークフロー", "プロセス改善",
   "データ活用", "ビッグデータ", "データ分析", "bi", "アナリティクス",
   "dx推進", "dx戦略", "it導入", "システム刷新", "レガシー"]

/-- The `category_keywords` table in its (insertion-ordered) iteration
order `ai, iot, cloud, security, dx`. -/
def category_keywords : List (String × List String) :=
  [("ai", ai_keywords), ("iot", iot_keywords), ("cloud", cloud_keywords),
   ("security", security_keywords), ("dx", dx_keywords)]

/-- `sum(1 for keyword in keywords if keyword in title_lower)`. -/
def keywordCount (kws : List String) (title_lower : List Char) : Nat :=
  (kws.filter (fun kw => strIn kw.data title_lower)).length

/-- The body of Python `max(..., key=lambda x: x[1])`: `max` keeps the
first element among ties (it replaces the current best only on strictly
greater key). -/
def pickBest (best q : String × Nat) : String × Nat :=
  if q.2 > best.2 then q else best

/-- `max(category_scores.items(), key=lambda x: x[1])[0]` over the
insertion-ordered positive-score pairs; `"other"` when the dict is empty
(lines 258-262). -/
def maxFirst : List (String × Nat) → String
  | [] => "other"
  | p :: ps => (ps.foldl pickBest p).1

/-- `get_article_category` (lines 182-262): count keyword hits per
category over the lower-cased title, keep the categories with positive
score in iteration order, return the first one with the maximal score, or
`"other"` when no category scores. -/
def get_article_category (title : String) : String :=
  let title_lower := pyLower title.data
  maxFirst ((category_keywords.map (fun p => (p.1, keywordCount p.2 title_lower))).filter
    (fun p => p.2 > 0))

/-- Modelled from the spec (§4.1): the classifier returns the category
with the highest keyword-match count, ties broken by the fixed enumeration
order `ai, iot, cloud, security, dx`, and `"other"` when every count is
zero.  Stated as a direct first-argmax chain, to be compared with
`get_article_category`. -/
def classifySpec (title : String) : String :=
  let t := pyLower title.data
  let n1 := keywordCount ai_keywords t
  let n2 := keywordCount iot_keywords t
  let n3 := keywordCount cloud_keywords t
  let n4 := keywordCount security_keywords t
  let n5 := keywordCount dx_keywords t
  if n1 = 0 ∧ n2 = 0 ∧ n3 = 0 ∧ n4 = 0 ∧ n5 = 0 then "other"
  else if n1 ≥ n2 ∧ n1 ≥ n3 ∧ n1 ≥ n4 ∧ n1 ≥ n5 then "ai"
  else if n2 ≥ n1 ∧ n2 ≥ n3 ∧ n2 ≥ n4 ∧ n2 ≥ n5 then "iot"
  else if n3 ≥ n1 ∧ n3 ≥ n2 ∧ n3 ≥ n4 ∧ n3 ≥ n5 then "cloud"
  else if n4 ≥ n1 ∧ n4 ≥ n2 ∧ n4 ≥ n3 ∧ n4 ≥ n5 then "security"
  else "dx"

/-! ### `calculate_multi_category_score` (lines 397-459) -/

/-- The `tier_bonus` dict lookup with default 1 (lines 411-415). -/
def tier_bonus (tier : String) : Int :=
  if tier = "tier1" then 2
  else if tier = "tier2" then 3
  else if tier = "tier3" then 2
  else if tier = "tier4" then 4
  else if tier = "tier5" then 1
  else if tier = "tier6" then 1
  else 1

/-- The `category_bonus` dict lookup with default 1 (lines 420-428). -/
def category_bonus (category : String) : Int :=
  if category = "ai" then 8
  else if category = "iot" then 7
  else if category = "cloud" then 7
  else if category = "security" then 8
  else if category = "dx" then 6
  else if category = "other" then 2
  else 1

/-- `ultra_keywords` of the `ai` scoring branch (line 432). -/
def ultra_keywords : List String := ["chatgpt", "claude", "gemini", "生成ai", "llm"]

/-- `high_keywords` of the `ai` scoring branch (line 433). -/
def ai_high_keywords : List String := ["ai活用", "ai導入", "機械学習", "深層学習"]

/-- `key_keywords` of the `iot` scoring branch (line 440). -/
def iot_key_keywords : List String :=
  ["iot", "センサー", "エッジコンピューティング", "スマートデバイス", "産業iot"]

/-- `popular_keywords` of the `cloud` scoring branch (line 445). -/
def cloud_popular_keywords : List String :=
  ["aws", "azure", "gcp", "kubernetes", "docker", "クラウド移行"]

/-- `tech_keywords` of the `security` scoring branch (line 450; the local
name shadows the outer `tech_keywords` list, which is itself unused). -/
def security_tech_keywords : List String :=
  ["セキュリティ", "ゼロトラスト", "サイバー攻撃", "脆弱性", "暗号化"]

/-- `dx_keywords` of the `dx` scoring branch (line 455). -/
def dx_score_keywords : List String :=
  ["dx", "デジタル化", "業務効率化", "rpa", "データ活用"]

/-- The keyword-intensity term (lines 430-457): per-branch loops adding a
fixed weight for every branch keyword contained in the lower-cased title;
the loop total equals weight times hit count. -/
def keywordBonus (category : String) (title_lower : List Char) : Int :=
  if category = "ai" then
    10 * (keywordCount ultra_keywords title_lower : Int) +
      7 * (keywordCount ai_high_keywords title_lower : Int)
  else if category = "iot" then 9 * (keywordCount iot_key_keywords title_lower : Int)
  else if category = "cloud" then 9 * (keywordCount cloud_popular_keywords title_lower : Int)
  else if category = "security" then 10 * (keywordCount security_tech_keywords title_lower : Int)
  else if category = "dx" then 8 * (keywordCount dx_score_keywords title_lower : Int)
  else 0

/-- The diversity/balance term (lines 405-406):
`max(0, 10 - current_count * 3)`. -/
def balance_bonus (category_counts : String → Nat) (category : String) : Int :=
  max 0 (10 - (category_counts category : Int) * 3)

/-- The provenance term (lines 409-417): a `tier_bonus` lookup for tiered
feeds, a flat 3 for `"additional"` sources. -/
def provenance_bonus (tier : String) : Int :=
  if tier ≠ "additional" then tier_bonus tier else 3

/-- `calculate_multi_category_score` (lines 397-459), sequentially adding
the balance, provenance, category and keyword-intensity terms to a score
starting at 0.  `category_counts` is the enclosing dict the closure reads
(`.get(category, 0)` modelled as function application). -/
def calculate_multi_category_score (category_counts : String → Nat)
    (article : Article) : Int :=
  let title_lower := pyLower article.title.data
  let tier := article.tier
  let category := article.category
  let score : Int := 0
  let score := score + balance_bonus category_counts category
  let score := score + provenance_bonus tier
  let score := score + category_bonus category
  let score := score + keywordBonus category title_lower
  score

/-! ### The selection pipeline of `fetch_multi_category_news`
(lines 392-565) -/

/-- The sort key of line 491: scores are computed by `list.sort` for every
element before the greedy pass runs, so the closure sees the untouched
empty `category_counts` dict. -/
def sortKeyScore (article : Article) : Int :=
  calculate_multi_category_score (fun _ => 0) article

/-- Insert into a descending-sorted list, before the first element of
smaller-or-equal key (so equal-key elements that were later in the
original list stay after the inserted earlier one). -/
def insertDesc (x : Article) : List Article → List Article
  | [] => [x]
  | y :: l => if sortKeyScore y ≤ sortKeyScore x then x :: y :: l else y :: insertDesc x l

/-- `filtered.sort(key=calculate_multi_category_score, reverse=True)`
(line 491): Python's Timsort is stable, and a stable sort w.r.t. a total
preorder has a unique result, so this stable insertion sort computes
exactly the list Python produces. -/
def sortByScoreDesc : List Article → List Article
  | [] => []
  | x :: l => insertDesc x (sortByScoreDesc l)

/-- Increment a counter table at one key. -/
def bump (f : String → Nat) (k : String) : String → Nat :=
  fun s => if s = k then f k + 1 else f s

/-- `max_per_source = max(1, limit // 3)` (line 512). -/
def max_per_source (limit : Nat) : Nat := max 1 (limit / 3)

/-- The mutable state of the greedy pass (lines 485-488 and 395):
`seen_urls` (a set: only membership is queried; the accepted links in
order), `seen_normalized_titles` (despite the name it stores the raw
accepted titles, line 520), `unique`, `source_count`, and the
`category_counts` dict updated at line 526 (never read again: sort keys
are precomputed and the backfill recounts from scratch). -/
structure SelState where
  seen_urls : List String
  seen_normalized_titles : List String
  unique : List Article
  source_count : String → Nat
  category_counts : String → Nat

/-- The initial empty selection state. -/
def initState : SelState :=
  { seen_urls := [], seen_normalized_titles := [], unique := [],
    source_count := fun _ => 0, category_counts := fun _ => 0 }

/-- Accepting an article (lines 518-526): record its link and title as
seen, append it to the output, and increment its source's and its
category's counters. -/
def acceptArticle (st : SelState) (article : Article) : SelState :=
  { seen_urls := st.seen_urls ++ [article.link]
    seen_normalized_titles := st.seen_normalized_titles ++ [article.title]
    unique := st.unique ++ [article]
    source_count := bump st.source_count article.source
    category_counts := bump st.category_counts article.category }

/-- The greedy pass (lines 493-529): walk the sorted candidates; skip on
seen link, on fuzzy title similarity with any accepted title, or when the
article's source already reached `max_per_source`; otherwise accept, and
stop as soon as `limit` articles are accepted (the length check runs after
the acceptance). -/
def greedyPass (limit : Nat) : List Article → SelState → SelState
  | [], st => st
  | article :: rest, st =>
    if st.seen_urls.contains article.link then greedyPass limit rest st
    else if st.seen_normalized_titles.any
        (fun seen_title => is_similar_content article.title seen_title) then
      greedyPass limit rest st
    else if st.source_count article.source ≥ max_per_source limit then
      greedyPass limit rest st
    else
      let st' := acceptArticle st article
      if st'.unique.length ≥ limit then st' else greedyPass limit rest st'

/-- `target_categories` (line 539). -/
def target_categories : List String := ["ai", "iot", "cloud", "security", "dx"]

/-- Occurrences of a category among the selected articles (the recount of
lines 533-536). -/
def countCategory (unique : List Article) (c : String) : Nat :=
  (unique.filter (fun a => a.category == c)).length

/-- The state threaded through the backfill pass (the greedy pass's
`seen_urls` and `unique` plus the freshly recounted `category_counts`). -/
structure BackfillState where
  seen_urls : List String
  unique : List Article
  category_counts : String → Nat

/-- One target category of the backfill pass (lines 540-551): when the
category has no selected article and the limit is not reached, append the
first candidate of that category whose link is unseen (the inner loop also
re-tests `len(unique) < limit`, constant during the scan), record its link
and set the category's count to 1. -/
def backfillStep (sorted : List Article) (limit : Nat) (st : BackfillState)
    (tc : String) : BackfillState :=
  if st.category_counts tc = 0 ∧ st.unique.length < limit then
    match sorted.find? (fun a => a.category == tc &&
        !(st.seen_urls.contains a.link) && decide (st.unique.length < limit)) with
    | some a =>
      { seen_urls := st.seen_urls ++ [a.link]
        unique := st.unique ++ [a]
        category_counts := fun s => if s = tc then 1 else st.category_counts s }
    | none => st
  else st

/-- The backfill pass (lines 531-551): one `backfillStep` per target
category in the fixed order. -/
def backfillPass (sorted : List Article) (limit : Nat) (st : BackfillState) :
    BackfillState :=
  target_categories.foldl (backfillStep sorted limit) st

/-- The selection pipeline of `fetch_multi_category_news` (lines 392-565),
taking the ingested article list as input: no filtering is applied
(line 392 keeps every article), sort descending by score, run the greedy
pass, and when fewer than `limit` articles were selected run the backfill
pass over the same sorted candidate list with recounted per-category
totals.  `limit` is the function's nonnegative article budget (the script
calls it with `NEWS_LIMIT = 8`). -/
def fetch_multi_category_news (articles : List Article) (limit : Nat) :
    List Article :=
  let filtered := articles
  let sorted := sortByScoreDesc filtered
  let g := greedyPass limit sorted initState
  if g.unique.length < limit then
    (backfillPass sorted limit
      { seen_urls := g.seen_urls, unique := g.unique,
        category_counts := fun c => countCategory g.unique c }).unique
  else g.unique

/-- Shorthand for building an ingested article from an additional-pool
feed (tier `"additional"`, the value every claim instance here uses). -/
def mkArt (title link source category : String) : Article :=
  { title := title, link := link, source := source, tier := "additional",
    category := category, feed_type := "additional_source" }

/-- Modelled from the spec: a half-width (ASCII) punctuation or symbol
character, i.e. the printable ASCII ranges `!../`, `:..@`, `[..\x60`
and `\x7b..~`.  Used only to state the normalization claim about
half-width punctuation. -/
def isHalfwidthPunctSymbol (c : Char) : Bool :=
  decide ((0x21 ≤ c.toNat ∧ c.toNat ≤ 0x2f) ∨
    (0x3a ≤ c.toNat ∧ c.toNat ≤ 0x40) ∨
    (0x5b ≤ c.toNat ∧ c.toNat ≤ 0x60) ∨
    (0x7b ≤ c.toNat ∧ c.toNat ≤ 0x7e))

/-! ## Lemmas about the `SequenceMatcher` embedding -/

theorem flmRow_bounds (alo ahi blo bhi : Nat) (j2len : List (Nat × Nat)) (i : Nat)
    (hi : alo ≤ i) (hia : i < ahi)
    (hj2 : ∀ p ∈ j2len, blo + p.2 ≤ p.1 + 1 ∧ alo + p.2 ≤ i ∧ blo ≤ p.1 ∧ p.1 < bhi) :
    ∀ (js : List Nat) (best : MatchBlock) (newRow : List (Nat × Nat)),
    (∀ j ∈ js, blo ≤ j ∧ j < bhi) →
    (alo ≤ best.i ∧ blo ≤ best.j ∧ best.i + best.size ≤ ahi ∧
      best.j + best.size ≤ bhi) →
    (∀ p ∈ newRow, blo + p.2 ≤ p.1 + 1 ∧ alo + p.2 ≤ i + 1 ∧ blo ≤ p.1 ∧ p.1 < bhi) →
    (alo ≤ (flmRow j2len i js best newRow).1.i ∧
      blo ≤ (flmRow j2len i js best newRow).1.j ∧
      (flmRow j2len i js best newRow).1.i + (flmRow j2len i js best newRow).1.size ≤ ahi ∧
      (flmRow j2len i js best newRow).1.j + (flmRow j2len i js best newRow).1.size ≤ bhi) ∧
    (∀ p ∈ (flmRow j2len i js best newRow).2, blo + p.2 ≤ p.1 + 1 ∧
      alo + p.2 ≤ i + 1 ∧ blo ≤ p.1 ∧ p.1 < bhi) := by
  intro js
  induction js with
  | nil => intro best newRow _ hb hn; exact ⟨hb, hn⟩
  | cons j js ih =>
    intro best newRow hjs hb hn
    have hj := hjs j (List.mem_cons_self j js)
    have hjs' : ∀ x ∈ js, blo ≤ x ∧ x < bhi :=
      fun x hx => hjs x (List.mem_cons_of_mem j hx)
    simp only [flmRow]
    have hk : 1 ≤ (if j = 0 then 1 else lookupD j2len (j - 1) + 1) ∧
        blo + (if j = 0 then 1 else lookupD j2len (j - 1) + 1) ≤ j + 1 ∧
        alo + (if j = 0 then 1 else lookupD j2len (j - 1) + 1) ≤ i + 1 := by
      by_cases hj0 : j = 0
      · rw [if_pos hj0]
        subst hj0
        have : blo = 0 := by omega
        omega
      · rw [if_neg hj0]
        have hl : lookupD j2len (j - 1) = 0 ∨
            (∃ p ∈ j2len, p.1 = j - 1 ∧ lookupD j2len (j - 1) = p.2) := by
          unfold lookupD
          cases hf : j2len.find? (fun p => p.1 == (j - 1)) with
          | none => exact Or.inl rfl
          | some p =>
            refine Or.inr ⟨p, List.mem_of_find?_eq_some hf, ?_, rfl⟩
            have := List.find?_some hf
            simpa using this
        rcases hl with hl | ⟨p, hmem, hkey, hl⟩
        · omega
        · have := hj2 p hmem
          omega
    have hnew' : ∀ p ∈ newRow ++ [(j, (if j = 0 then 1 else lookupD j2len (j - 1) + 1))],
        blo + p.2 ≤ p.1 + 1 ∧ alo + p.2 ≤ i + 1 ∧ blo ≤ p.1 ∧ p.1 < bhi := by
      intro p hp
      rcases List.mem_append.mp hp with hp | hp
      · exact hn p hp
      · have : p = (j, (if j = 0 then 1 else lookupD j2len (j - 1) + 1)) := by simpa using hp
        subst this
        simp only
        omega
    by_cases hc : (if j = 0 then 1 else lookupD j2len (j - 1) + 1) > best.size
    · rw [if_pos hc]
      exact ih _ _ hjs' (by simp only; omega) hnew'
    · rw [if_neg hc]
      exact ih _ _ hjs' hb hnew'

theorem flmRows_bounds (a : List Char) (b2j : Char → List Nat)
    (alo ahi blo bhi : Nat) :
    ∀ (n start : Nat) (best : MatchBlock) (j2len : List (Nat × Nat)),
    alo ≤ start → start + n ≤ ahi →
    (alo ≤ best.i ∧ blo ≤ best.j ∧ best.i + best.size ≤ ahi ∧
      best.j + best.size ≤ bhi) →
    (∀ p ∈ j2len, blo + p.2 ≤ p.1 + 1 ∧ alo + p.2 ≤ start ∧ blo ≤ p.1 ∧ p.1 < bhi) →
    (alo ≤ (flmRows a b2j blo bhi (List.range' start n) best j2len).i ∧
      blo ≤ (flmRows a b2j blo bhi (List.range' start n) best j2len).j ∧
      (flmRows a b2j blo bhi (List.range' start n) best j2len).i +
        (flmRows a b2j blo bhi (List.range' start n) best j2len).size ≤ ahi ∧
      (flmRows a b2j blo bhi (List.range' start n) best j2len).j +
        (flmRows a b2j blo bhi (List.range' start n) best j2len).size ≤ bhi) := by
  intro n
  induction n with
  | zero => intro start best j2len _ _ hb _; exact hb
  | succ n ih =>
    intro start best j2len hs hsn hb hj2
    rw [List.range'_succ start n 1]
    simp only [flmRows]
    have hjs : ∀ j ∈ ((b2j (a.getD start ' ')).filter (fun j => blo ≤ j)).takeWhile
        (fun j => j < bhi), blo ≤ j ∧ j < bhi := by
      intro j hjm
      constructor
      · have hjf := (List.takeWhile_sublist (fun j => j < bhi)).subset hjm
        have := (List.mem_filter.mp hjf).2
        simpa using this
      · have := List.mem_takeWhile_imp hjm
        simpa using this
    have hrow := flmRow_bounds alo ahi blo bhi j2len start hs (by omega) hj2
      (((b2j (a.getD start ' ')).filter (fun j => blo ≤ j)).takeWhile (fun j => j < bhi))
      best [] hjs hb (by intro p hp; simp at hp)
    exact ih (start + 1) _ _ (by omega) (by omega) hrow.1 hrow.2

theorem extendFront_bounds (a b : List Char) (alo blo ahi bhi : Nat) :
    ∀ (fuel : Nat) (m : MatchBlock),
    (alo ≤ m.i ∧ blo ≤ m.j ∧ m.i + m.size ≤ ahi ∧ m.j + m.size ≤ bhi) →
    (alo ≤ (extendFront a b alo blo fuel m).i ∧
      blo ≤ (extendFront a b alo blo fuel m).j ∧
      (extendFront a b alo blo fuel m).i + (extendFront a b alo blo fuel m).size ≤ ahi ∧
      (extendFront a b alo blo fuel m).j + (extendFront a b alo blo fuel m).size ≤ bhi) := by
  intro fuel
  induction fuel with
  | zero => intro m hm; exact hm
  | succ fuel ih =>
    intro m hm
    simp only [extendFront]
    by_cases hc : alo < m.i ∧ blo < m.j ∧
        (a.getD (m.i - 1) ' ' == b.getD (m.j - 1) ' ') = true
    · rw [if_pos hc]
      exact ih ⟨m.i - 1, m.j - 1, m.size + 1⟩ (by simp only; omega)
    · rw [if_neg hc]
      exact hm

theorem extendBack_bounds (a b : List Char) (alo blo ahi bhi : Nat) :
    ∀ (fuel : Nat) (m : MatchBlock),
    (alo ≤ m.i ∧ blo ≤ m.j ∧ m.i + m.size ≤ ahi ∧ m.j + m.size ≤ bhi) →
    (alo ≤ (extendBack a b ahi bhi fuel m).i ∧
      blo ≤ (extendBack a b ahi bhi fuel m).j ∧
      (extendBack a b ahi bhi fuel m).i + (extendBack a b ahi bhi fuel m).size ≤ ahi ∧
      (extendBack a b ahi bhi fuel m).j + (extendBack a b ahi bhi fuel m).size ≤ bhi) := by
  intro fuel
  induction fuel with
  | zero => intro m hm; exact hm
  | succ fuel ih =>
    intro m hm
    simp only [extendBack]
    by_cases hc : m.i + m.size < ahi ∧ m.j + m.size < bhi ∧
        (a.getD (m.i + m.size) ' ' == b.getD (m.j + m.size) ' ') = true
    · rw [if_pos hc]
      exact ih ⟨m.i, m.j, m.size + 1⟩ (by simp only; omega)
    · rw [if_neg hc]
      exact hm

theorem find_longest_match_bounds (a b : List Char) (b2j : Char → List Nat)
    (alo ahi blo bhi : Nat) (hab : alo ≤ ahi) (hbb : blo ≤ bhi) :
    alo ≤ (find_longest_match a b b2j alo ahi blo bhi).i ∧
    blo ≤ (find_longest_match a b b2j alo ahi blo bhi).j ∧
    (find_longest_match a b b2j alo ahi blo bhi).i +
      (find_longest_match a b b2j alo ahi blo bhi).size ≤ ahi ∧
    (find_longest_match a b b2j alo ahi blo bhi).j +
      (find_longest_match a b b2j alo ahi blo bhi).size ≤ bhi := by
  unfold find_longest_match
  have h0 := flmRows_bounds a b2j alo ahi blo bhi (ahi - alo) alo ⟨alo, blo, 0⟩ []
    (le_refl alo) (by omega) (by simp only; omega) (by intro p hp; simp at hp)
  set m0 := flmRows a b2j blo bhi (List.range' alo (ahi - alo)) ⟨alo, blo, 0⟩ []
  have h1 := extendFront_bounds a b alo blo ahi bhi m0.i m0 h0
  exact extendBack_bounds a b alo blo ahi bhi ahi _ h1

theorem matchesTotal_le (a b : List Char) (b2j : Char → List Nat) :
    ∀ (fuel alo ahi blo bhi : Nat), alo ≤ ahi → blo ≤ bhi →
    matchesTotal a b b2j fuel alo ahi blo bhi ≤ min (ahi - alo) (bhi - blo) := by
  intro fuel
  induction fuel with
  | zero => intro alo ahi blo bhi _ _; simp [matchesTotal]
  | succ fuel ih =>
    intro alo ahi blo bhi hab hbb
    simp only [matchesTotal]
    set m := find_longest_match a b b2j alo ahi blo bhi with hm
    by_cases h0 : m.size = 0
    · rw [if_pos h0]; omega
    · rw [if_neg h0]
      have hb := find_longest_match_bounds a b b2j alo ahi blo bhi hab hbb
      rw [← hm] at hb
      have hL := ih alo m.i blo m.j (by omega) (by omega)
      have hR := ih (m.i + m.size) ahi (m.j + m.size) bhi (by omega) (by omega)
      omega

theorem matchesFor_le (a b : List Char) :
    matchesFor a b ≤ min a.length b.length := by
  have := matchesTotal_le a b (b2jFun b) (a.length + b.length + 1) 0 a.length 0 b.length
    (by omega) (by omega)
  simpa [matchesFor] using this

theorem ratio_nonneg (a b : List Char) : 0 ≤ ratio a b := by
  unfold ratio
  by_cases h : a.length + b.length = 0
  · rw [if_pos h]; norm_num
  · rw [if_neg h]
    apply div_nonneg
    · positivity
    · positivity

theorem ratio_le_one (a b : List Char) : ratio a b ≤ 1 := by
  unfold ratio
  by_cases h : a.length + b.length = 0
  · rw [if_pos h]
  · rw [if_neg h]
    rw [div_le_one (by exact_mod_cast Nat.pos_of_ne_zero h)]
    have := matchesFor_le a b
    have h2 : 2 * matchesFor a b ≤ a.length + b.length := by omega
    exact_mod_cast h2

theorem ratio_threshold_iff (a b : List Char) (h : a.length + b.length ≠ 0) :
    ((4 : ℚ)/5 ≤ ratio a b) ↔ 2 * (a.length + b.length) ≤ 5 * matchesFor a b := by
  unfold ratio
  rw [if_neg h]
  rw [div_le_div_iff₀ (by norm_num) (by exact_mod_cast Nat.pos_of_ne_zero h)]
  constructor
  · intro h'
    have h'' : 4 * (a.length + b.length) ≤ 2 * matchesFor a b * 5 := by exact_mod_cast h'
    omega
  · intro h'
    have h'' : 4 * (a.length + b.length) ≤ 2 * matchesFor a b * 5 := by omega
    exact_mod_cast h''

/-! ## Lemmas about normalization characters -/

theorem char_toNat_ofNat (n : Nat) (h : n.isValidChar) : (Char.ofNat n).toNat = n := by
  unfold Char.ofNat
  rw [dif_pos h]
  rfl

theorem pyLowerChar_preserves (c : Char) (h1 : inPunctRange c = false)
    (h2 : isDigitChar c = false) (h3 : isPySpace c = false) :
    inPunctRange (pyLowerChar c) = false ∧ isDigitChar (pyLowerChar c) = false ∧
      isPySpace (pyLowerChar c) = false ∧ pyLowerChar (pyLowerChar c) = pyLowerChar c := by
  have hval : ∀ (n : Nat), (0x61 ≤ n ∧ n ≤ 0x7a) ∨ (0xe0 ≤ n ∧ n ≤ 0xfe) ∨
      (0xff41 ≤ n ∧ n ≤ 0xff5a) → Nat.isValidChar n := by
    intro n hn
    unfold Nat.isValidChar
    rcases hn with h | h | h
    · exact Or.inl (by omega)
    · exact Or.inl (by omega)
    · exact Or.inr (by omega)
  have key : ∀ (d : Char), (0x61 ≤ d.toNat ∧ d.toNat ≤ 0x7a) ∨
      (0xe0 ≤ d.toNat ∧ d.toNat ≤ 0xfe) ∨ (0xff41 ≤ d.toNat ∧ d.toNat ≤ 0xff5a) →
      inPunctRange d = false ∧ isDigitChar d = false ∧ isPySpace d = false ∧
        pyLowerChar d = d := by
    intro d hd
    refine ⟨?_, ?_, ?_, ?_⟩
    · simp only [inPunctRange, decide_eq_false_iff_not]
      omega
    · simp only [isDigitChar, decide_eq_false_iff_not]
      omega
    · simp only [isPySpace, decide_eq_false_iff_not]
      omega
    · unfold pyLowerChar
      rw [if_neg (by omega), if_neg (by omega), if_neg (by omega)]
  by_cases hA : 0x41 ≤ c.toNat ∧ c.toNat ≤ 0x5a
  · have hres : pyLowerChar c = Char.ofNat (c.toNat + 0x20) := by
      unfold pyLowerChar
      rw [if_pos hA]
    have htn : (Char.ofNat (c.toNat + 0x20)).toNat = c.toNat + 0x20 :=
      char_toNat_ofNat _ (hval _ (Or.inl (by omega)))
    have hk := key (Char.ofNat (c.toNat + 0x20)) (by rw [htn]; exact Or.inl (by omega))
    rw [hres]
    exact ⟨hk.1, hk.2.1, hk.2.2.1, by rw [hk.2.2.2]⟩
  · by_cases hL : 0xc0 ≤ c.toNat ∧ c.toNat ≤ 0xde ∧ c.toNat ≠ 0xd7
    · have hres : pyLowerChar c = Char.ofNat (c.toNat + 0x20) := by
        unfold pyLowerChar
        rw [if_neg hA, if_pos hL]
      have htn : (Char.ofNat (c.toNat + 0x20)).toNat = c.toNat + 0x20 :=
        char_toNat_ofNat _ (hval _ (Or.inr (Or.inl (by omega))))
      have hk := key (Char.ofNat (c.toNat + 0x20))
        (by rw [htn]; exact Or.inr (Or.inl (by omega)))
      rw [hres]
      exact ⟨hk.1, hk.2.1, hk.2.2.1, by rw [hk.2.2.2]⟩
    · by_cases hF : 0xff21 ≤ c.toNat ∧ c.toNat ≤ 0xff3a
      · have hres : pyLowerChar c = Char.ofNat (c.toNat + 0x20) := by
          unfold pyLowerChar
          rw [if_neg hA, if_neg hL, if_pos hF]
        have htn : (Char.ofNat (c.toNat + 0x20)).toNat = c.toNat + 0x20 :=
          char_toNat_ofNat _ (hval _ (Or.inr (Or.inr (by omega))))
        have hk := key (Char.ofNat (c.toNat + 0x20))
          (by rw [htn]; exact Or.inr (Or.inr (by omega)))
        rw [hres]
        exact ⟨hk.1, hk.2.1, hk.2.2.1, by rw [hk.2.2.2]⟩
      · have hres : pyLowerChar c = c := by
          unfold pyLowerChar
          rw [if_neg hA, if_neg hL, if_neg hF]
        rw [hres]
        exact ⟨h1, h2, h3, hres⟩

theorem mem_pyStrip (l : List Char) (c : Char) (h : c ∈ pyStrip l) : c ∈ l := by
  unfold pyStrip at h
  rw [List.mem_reverse] at h
  have h1 := (List.dropWhile_sublist isPySpace).subset h
  rw [List.mem_reverse] at h1
  exact (List.dropWhile_sublist isPySpace).subset h1

theorem mem_normalize_title (title : String) (c : Char)
    (h : c ∈ (normalize_title title).data) :
    ∃ c0 ∈ title.data, inPunctRange c0 = false ∧ isDigitChar c0 = false ∧
      isPySpace c0 = false ∧ c = pyLowerChar c0 := by
  simp only [normalize_title] at h
  have h1 := mem_pyStrip _ _ h
  simp only [pyLower, List.mem_map] at h1
  obtain ⟨c0, hc0, hmap⟩ := h1
  rw [List.mem_filter] at hc0
  obtain ⟨hc1, hsp⟩ := hc0
  rw [List.mem_filter] at hc1
  obtain ⟨hc2, hdg⟩ := hc1
  rw [List.mem_filter] at hc2
  obtain ⟨hmem, hpr⟩ := hc2
  refine ⟨c0, hmem, ?_, ?_, ?_, hmap.symm⟩
  · simpa using hpr
  · simpa using hdg
  · simpa using hsp

/-! ## Lemmas about the classifier's first-max selection -/

theorem foldl_pickBest_of_le (p : String × Nat) (l : List (String × Nat))
    (h : ∀ x ∈ l, x.2 ≤ p.2) : l.foldl pickBest p = p := by
  induction l with
  | nil => rfl
  | cons x xs ih =>
    have hx : ¬ (x.2 > p.2) := by
      have := h x (List.mem_cons_self x xs); omega
    simp only [List.foldl_cons, pickBest, if_neg hx]
    exact ih (fun y hy => h y (List.mem_cons_of_mem x hy))

theorem foldl_pickBest_through (l1 : List (String × Nat)) (q : String × Nat)
    (l2 : List (String × Nat)) (p : String × Nat) (hp : p.2 < q.2)
    (h1 : ∀ x ∈ l1, x.2 < q.2) (h2 : ∀ x ∈ l2, x.2 ≤ q.2) :
    (l1 ++ q :: l2).foldl pickBest p = q := by
  induction l1 generalizing p with
  | nil =>
    simp only [List.nil_append, List.foldl_cons, pickBest, if_pos hp]
    exact foldl_pickBest_of_le q l2 h2
  | cons x xs ih =>
    simp only [List.cons_append, List.foldl_cons]
    have hx : x.2 < q.2 := h1 x (List.mem_cons_self x xs)
    have hrec := fun (r : String × Nat) (hr : r.2 < q.2) =>
      ih r hr (fun y hy => h1 y (List.mem_cons_of_mem x hy))
    by_cases hc : x.2 > p.2
    · simp only [pickBest, if_pos hc]; exact hrec x hx
    · simp only [pickBest, if_neg hc]; exact hrec p hp

theorem maxFirst_decomp (l1 : List (String × Nat)) (q : String × Nat)
    (l2 : List (String × Nat)) (h1 : ∀ x ∈ l1, x.2 < q.2)
    (h2 : ∀ x ∈ l2, x.2 ≤ q.2) : maxFirst (l1 ++ q :: l2) = q.1 := by
  cases l1 with
  | nil =>
    simp only [List.nil_append, maxFirst]
    rw [foldl_pickBest_of_le q l2 h2]
  | cons x xs =>
    simp only [List.cons_append, maxFirst]
    rw [foldl_pickBest_through xs q l2 x (h1 x (List.mem_cons_self x xs))
      (fun y hy => h1 y (List.mem_cons_of_mem x hy)) h2]

theorem filter_pos_decomp (l1 : List (String × Nat)) (q : String × Nat)
    (l2 : List (String × Nat)) (hq : 0 < q.2) :
    (l1 ++ q :: l2).filter (fun p => p.2 > 0) =
      (l1.filter (fun p => p.2 > 0)) ++ q :: (l2.filter (fun p => p.2 > 0)) := by
  rw [List.filter_append]
  congr 1
  exact List.filter_cons_of_pos (by exact decide_eq_true hq)

theorem selectFirstMax (s1 s2 s3 s4 s5 : Nat) :
    maxFirst ([("ai", s1), ("iot", s2), ("cloud", s3), ("security", s4), ("dx", s5)].filter
        (fun p => p.2 > 0)) =
    (if s1 = 0 ∧ s2 = 0 ∧ s3 = 0 ∧ s4 = 0 ∧ s5 = 0 then "other"
     else if s1 ≥ s2 ∧ s1 ≥ s3 ∧ s1 ≥ s4 ∧ s1 ≥ s5 then "ai"
     else if s2 ≥ s1 ∧ s2 ≥ s3 ∧ s2 ≥ s4 ∧ s2 ≥ s5 then "iot"
     else if s3 ≥ s1 ∧ s3 ≥ s2 ∧ s3 ≥ s4 ∧ s3 ≥ s5 then "cloud"
     else if s4 ≥ s1 ∧ s4 ≥ s2 ∧ s4 ≥ s3 ∧ s4 ≥ s5 then "security"
     else "dx") := by
  by_cases hz : s1 = 0 ∧ s2 = 0 ∧ s3 = 0 ∧ s4 = 0 ∧ s5 = 0
  · obtain ⟨z1, z2, z3, z4, z5⟩ := hz
    subst z1; subst z2; subst z3; subst z4; subst z5
    simp [maxFirst]
  · rw [if_neg hz]
    by_cases hA : s1 ≥ s2 ∧ s1 ≥ s3 ∧ s1 ≥ s4 ∧ s1 ≥ s5
    · rw [if_pos hA]
      have h1p : (0 : Nat) < s1 := by omega
      have e1 : ([("ai", s1), ("iot", s2), ("cloud", s3), ("security", s4), ("dx", s5)] :
          List (String × Nat)) =
          [] ++ ("ai", s1) :: [("iot", s2), ("cloud", s3), ("security", s4), ("dx", s5)] := rfl
      rw [e1, filter_pos_decomp _ _ _ h1p, maxFirst_decomp]
      · intro x hx; simp at hx
      · intro x hx
        have hm := List.mem_of_mem_filter hx
        simp only [List.mem_cons, List.not_mem_nil, or_false] at hm
        rcases hm with h | h | h | h <;> subst h
        · show s2 ≤ s1; omega
        · show s3 ≤ s1; omega
        · show s4 ≤ s1; omega
        · show s5 ≤ s1; omega
    · rw [if_neg hA]
      by_cases hB : s2 ≥ s1 ∧ s2 ≥ s3 ∧ s2 ≥ s4 ∧ s2 ≥ s5
      · rw [if_pos hB]
        have h2p : (0 : Nat) < s2 := by omega
        have e1 : ([("ai", s1), ("iot", s2), ("cloud", s3), ("security", s4), ("dx", s5)] :
            List (String × Nat)) =
            [("ai", s1)] ++ ("iot", s2) :: [("cloud", s3), ("security", s4), ("dx", s5)] := rfl
        rw [e1, filter_pos_decomp _ _ _ h2p, maxFirst_decomp]
        · intro x hx
          have hm := List.mem_of_mem_filter hx
          simp only [List.mem_cons, List.not_mem_nil, or_false] at hm
          subst hm; show s1 < s2; omega
        · intro x hx
          have hm := List.mem_of_mem_filter hx
          simp only [List.mem_cons, List.not_mem_nil, or_false] at hm
          rcases hm with h | h | h <;> subst h
          · show s3 ≤ s2; omega
          · show s4 ≤ s2; omega
          · show s5 ≤ s2; omega
      · rw [if_neg hB]
        by_cases hC : s3 ≥ s1 ∧ s3 ≥ s2 ∧ s3 ≥ s4 ∧ s3 ≥ s5
        · rw [if_pos hC]
          have h3p : (0 : Nat) < s3 := by omega
          have e1 : ([("ai", s1), ("iot", s2), ("cloud", s3), ("security", s4), ("dx", s5)] :
              List (String × Nat)) =
              [("ai", s1), ("iot", s2)] ++ ("cloud", s3) ::
                [("security", s4), ("dx", s5)] := rfl
          rw [e1, filter_pos_decomp _ _ _ h3p, maxFirst_decomp]
          · intro x hx
            have hm := List.mem_of_mem_filter hx
            simp only [List.mem_cons, List.not_mem_nil, or_false] at hm
            rcases hm with h | h <;> subst h
            · show s1 < s3; omega
            · show s2 < s3; omega
          · intro x hx
            have hm := List.mem_of_mem_filter hx
            simp only [List.mem_cons, List.not_mem_nil, or_false] at hm
            rcases hm with h | h <;> subst h
            · show s4 ≤ s3; omega
            · show s5 ≤ s3; omega
        · rw [if_neg hC]
          by_cases hD : s4 ≥ s1 ∧ s4 ≥ s2 ∧ s4 ≥ s3 ∧ s4 ≥ s5
          · rw [if_pos hD]
            have h4p : (0 : Nat) < s4 := by omega
            have e1 : ([("ai", s1), ("iot", s2), ("cloud", s3), ("security", s4), ("dx", s5)] :
                List (String × Nat)) =
                [("ai", s1), ("iot", s2), ("cloud", s3)] ++ ("security", s4) ::
                  [("dx", s5)] := rfl
            rw [e1, filter_pos_decomp _ _ _ h4p, maxFirst_decomp]
            · intro x hx
              have hm := List.mem_of_mem_filter hx
              simp only [List.mem_cons, List.not_mem_nil, or_false] at hm
              rcases hm with h | h | h <;> subst h
              · show s1 < s4; omega
              · show s2 < s4; omega
              · show s3 < s4; omega
            · intro x hx
              have hm := List.mem_of_mem_filter hx
              simp only [List.mem_cons, List.not_mem_nil, or_false] at hm
              subst hm; show s5 ≤ s4; omega
          · rw [if_neg hD]
            have h5p : (0 : Nat) < s5 := by omega
            have e1 : ([("ai", s1), ("iot", s2), ("cloud", s3), ("security", s4), ("dx", s5)] :
                List (String × Nat)) =
                [("ai", s1), ("iot", s2), ("cloud", s3), ("security", s4)] ++
                  ("dx", s5) :: [] := rfl
            rw [e1, filter_pos_decomp _ _ _ h5p, maxFirst_decomp]
            · intro x hx
              have hm := List.mem_of_mem_filter hx
              simp only [List.mem_cons, List.not_mem_nil, or_false] at hm
              rcases hm with h | h | h | h <;> subst h
              · show s1 < s5; omega
              · show s2 < s5; omega
              · show s3 < s5; omega
              · show s4 < s5; omega
            · intro x hx; simp at hx

/-! ## Lemmas about the selection pipeline -/

theorem insertDesc_perm (x : Article) (l : List Article) :
    (insertDesc x l).Perm (x :: l) := by
  induction l with
  | nil => exact List.Perm.refl _
  | cons y l ih =>
    simp only [insertDesc]
    by_cases h : sortKeyScore y ≤ sortKeyScore x
    · rw [if_pos h]
    · rw [if_neg h]
      exact ((ih.cons y).trans (List.Perm.swap x y l))

theorem sortByScoreDesc_perm (l : List Article) : (sortByScoreDesc l).Perm l := by
  induction l with
  | nil => exact List.Perm.refl _
  | cons x l ih =>
    simp only [sortByScoreDesc]
    exact (insertDesc_perm x (sortByScoreDesc l)).trans (ih.cons x)

theorem greedyPass_cons (limit : Nat) (article : Article) (rest : List Article)
    (st : SelState) :
    greedyPass limit (article :: rest) st =
      if st.seen_urls.contains article.link then greedyPass limit rest st
      else if st.seen_normalized_titles.any
          (fun seen_title => is_similar_content article.title seen_title) then
        greedyPass limit rest st
      else if st.source_count article.source ≥ max_per_source limit then
        greedyPass limit rest st
      else if (acceptArticle st article).unique.length ≥ limit then
        acceptArticle st article
      else greedyPass limit rest (acceptArticle st article) := rfl

theorem acceptArticle_unique (st : SelState) (article : Article) :
    (acceptArticle st article).unique = st.unique ++ [article] := rfl

theorem greedyPass_extend (limit : Nat) :
    ∀ (l : List Article) (st : SelState),
    ∃ suf, (greedyPass limit l st).unique = st.unique ++ suf := by
  intro l
  induction l with
  | nil => intro st; exact ⟨[], by simp [greedyPass]⟩
  | cons a l ih =>
    intro st
    rw [greedyPass_cons]
    split_ifs with h1 h2 h3 h4
    · exact ih st
    · exact ih st
    · exact ih st
    · exact ⟨[a], rfl⟩
    · obtain ⟨suf, hsuf⟩ := ih (acceptArticle st a)
      exact ⟨[a] ++ suf, by rw [hsuf, acceptArticle_unique, List.append_assoc]⟩

theorem greedyPass_seen (limit : Nat) :
    ∀ (l : List Article) (st : SelState),
    st.seen_urls = st.unique.map (fun a => a.link) →
    (greedyPass limit l st).seen_urls =
      (greedyPass limit l st).unique.map (fun a => a.link) := by
  intro l
  induction l with
  | nil => intro st h; simpa [greedyPass] using h
  | cons a l ih =>
    intro st h
    rw [greedyPass_cons]
    split_ifs with h1 h2 h3 h4
    · exact ih st h
    · exact ih st h
    · exact ih st h
    · simp only [acceptArticle, List.map_append, h]
      rfl
    · refine ih (acceptArticle st a) ?_
      simp only [acceptArticle, List.map_append, h]
      rfl

theorem greedyPass_mem (limit : Nat) :
    ∀ (l : List Article) (st : SelState) (a : Article),
    a ∈ (greedyPass limit l st).unique → a ∈ st.unique ∨ a ∈ l := by
  intro l
  induction l with
  | nil => intro st a h; exact Or.inl (by simpa [greedyPass] using h)
  | cons x l ih =>
    intro st a h
    rw [greedyPass_cons] at h
    split_ifs at h with h1 h2 h3 h4
    · rcases ih st a h with h' | h'
      · exact Or.inl h'
      · exact Or.inr (List.mem_cons_of_mem x h')
    · rcases ih st a h with h' | h'
      · exact Or.inl h'
      · exact Or.inr (List.mem_cons_of_mem x h')
    · rcases ih st a h with h' | h'
      · exact Or.inl h'
      · exact Or.inr (List.mem_cons_of_mem x h')
    · rw [acceptArticle_unique] at h
      rcases List.mem_append.mp h with h' | h'
      · exact Or.inl h'
      · exact Or.inr (by simpa using Or.inl (by simpa using h'))
    · rcases ih (acceptArticle st x) a h with h' | h'
      · rw [acceptArticle_unique] at h'
        rcases List.mem_append.mp h' with h'' | h''
        · exact Or.inl h''
        · exact Or.inr (by simpa using Or.inl (by simpa using h''))
      · exact Or.inr (List.mem_cons_of_mem x h')

theorem greedyPass_length_le (limit : Nat) :
    ∀ (l : List Article) (st : SelState),
    st.unique.length < limit → (greedyPass limit l st).unique.length ≤ limit := by
  intro l
  induction l with
  | nil => intro st h; simp only [greedyPass]; omega
  | cons a l ih =>
    intro st h
    rw [greedyPass_cons]
    split_ifs with h1 h2 h3 h4
    · exact ih st h
    · exact ih st h
    · exact ih st h
    · rw [acceptArticle_unique]
      simp only [List.length_append, List.length_cons, List.length_nil]
      omega
    · refine ih (acceptArticle st a) ?_
      rw [acceptArticle_unique] at h4 ⊢
      simp only [List.length_append, List.length_cons, List.length_nil] at h4 ⊢
      omega

theorem greedyPass_allseen (limit : Nat) :
    ∀ (l : List Article) (st : SelState),
    (∀ a ∈ l, st.seen_urls.contains a.link = true) →
    greedyPass limit l st = st := by
  intro l
  induction l with
  | nil => intro st _; rfl
  | cons a l ih =>
    intro st h
    rw [greedyPass_cons]
    rw [if_pos (by simpa using h a (List.mem_cons_self a l))]
    exact ih st (fun x hx => h x (List.mem_cons_of_mem a hx))

theorem bump_apply (f : String → Nat) (k s : String) :
    bump f k s = if s = k then f k + 1 else f s := rfl

theorem filter_source_singleton (a : Article) (s : String) :
    (([a] : List Article).filter (fun x => x.source == s)).length =
      if a.source = s then 1 else 0 := by
  by_cases h : a.source = s
  · simp [List.filter_cons, List.filter_nil, h]
  · simp [List.filter_cons, List.filter_nil, h]

theorem greedyPass_source_cap (limit : Nat) :
    ∀ (l : List Article) (st : SelState),
    (∀ s, st.source_count s = ((st.unique.filter (fun a => a.source == s)).length) ∧
      st.source_count s ≤ max_per_source limit) →
    ∀ s, (((greedyPass limit l st).unique.filter (fun a => a.source == s)).length) ≤
      max_per_source limit := by
  intro l
  induction l with
  | nil =>
    intro st h s
    simp only [greedyPass]
    have := h s
    omega
  | cons a l ih =>
    intro st h
    rw [greedyPass_cons]
    split_ifs with h1 h2 h3 h4
    · exact ih st h
    · exact ih st h
    · exact ih st h
    · intro s
      have hs := h s
      rw [acceptArticle_unique, List.filter_append, List.length_append,
        filter_source_singleton]
      by_cases hsa : a.source = s
      · rw [if_pos hsa]
        rw [hsa] at h3
        omega
      · rw [if_neg hsa]
        omega
    · refine ih (acceptArticle st a) ?_
      intro s
      have hs := h s
      have hbump : (acceptArticle st a).source_count s =
          if s = a.source then st.source_count a.source + 1 else st.source_count s := by
        show bump st.source_count a.source s = _
        rw [bump_apply]
      constructor
      · rw [hbump, acceptArticle_unique, List.filter_append, List.length_append,
          filter_source_singleton]
        by_cases hsa : s = a.source
        · rw [if_pos hsa, if_pos hsa.symm, (h a.source).1, hsa]
        · rw [if_neg hsa, if_neg (fun hh => hsa hh.symm), hs.1]
          omega
      · rw [hbump]
        by_cases hsa : s = a.source
        · rw [if_pos hsa]
          omega
        · rw [if_neg hsa]
          exact hs.2

theorem countCategory_append (u v : List Article) (c : String) :
    countCategory (u ++ v) c = countCategory u c + countCategory v c := by
  unfold countCategory
  rw [List.filter_append, List.length_append]

theorem countCategory_singleton (a : Article) (c : String) :
    countCategory [a] c = if a.category = c then 1 else 0 := by
  unfold countCategory
  by_cases h : a.category = c
  · simp [List.filter_cons, List.filter_nil, h]
  · simp [List.filter_cons, List.filter_nil, h]

theorem countCategory_pos_iff (u : List Article) (c : String) :
    0 < countCategory u c ↔ ∃ a ∈ u, a.category = c := by
  unfold countCategory
  rw [← List.countP_eq_length_filter]
  rw [List.countP_pos_iff]
  constructor
  · rintro ⟨a, ha, hp⟩
    exact ⟨a, ha, by simpa using hp⟩
  · rintro ⟨a, ha, hp⟩
    exact ⟨a, ha, by simpa using hp⟩

theorem backfillStep_extend (sorted : List Article) (limit : Nat)
    (st : BackfillState) (tc : String) :
    ∃ suf, (backfillStep sorted limit st tc).unique = st.unique ++ suf ∧
      suf.length ≤ 1 := by
  unfold backfillStep
  by_cases hc : st.category_counts tc = 0 ∧ st.unique.length < limit
  · rw [if_pos hc]
    cases hf : sorted.find? (fun a => a.category == tc &&
        !(st.seen_urls.contains a.link) && decide (st.unique.length < limit)) with
    | none => exact ⟨[], by simp⟩
    | some a => exact ⟨[a], rfl, by simp⟩
  · rw [if_neg hc]
    exact ⟨[], by simp⟩

theorem foldl_backfillStep_extend (sorted : List Article) (limit : Nat) :
    ∀ (ts : List String) (st : BackfillState),
    ∃ suf, (ts.foldl (backfillStep sorted limit) st).unique = st.unique ++ suf ∧
      suf.length ≤ ts.length := by
  intro ts
  induction ts with
  | nil => intro st; exact ⟨[], by simp⟩
  | cons t ts ih =>
    intro st
    simp only [List.foldl_cons]
    obtain ⟨s1, hs1, hl1⟩ := backfillStep_extend sorted limit st t
    obtain ⟨s2, hs2, hl2⟩ := ih (backfillStep sorted limit st t)
    refine ⟨s1 ++ s2, ?_, ?_⟩
    · rw [hs2, hs1, List.append_assoc]
    · rw [List.length_append]
      simp only [List.length_cons]
      omega

theorem backfillStep_le_limit (sorted : List Article) (limit : Nat)
    (st : BackfillState) (tc : String) (h : st.unique.length ≤ limit) :
    (backfillStep sorted limit st tc).unique.length ≤ limit := by
  unfold backfillStep
  by_cases hc : st.category_counts tc = 0 ∧ st.unique.length < limit
  · rw [if_pos hc]
    cases hf : sorted.find? (fun a => a.category == tc &&
        !(st.seen_urls.contains a.link) && decide (st.unique.length < limit)) with
    | none => exact h
    | some a =>
      simp only [List.length_append, List.length_cons, List.length_nil]
      omega
  · rw [if_neg hc]
    exact h

theorem foldl_backfillStep_le_limit (sorted : List Article) (limit : Nat) :
    ∀ (ts : List String) (st : BackfillState), st.unique.length ≤ limit →
    (ts.foldl (backfillStep sorted limit) st).unique.length ≤ limit := by
  intro ts
  induction ts with
  | nil => intro st h; exact h
  | cons t ts ih =>
    intro st h
    simp only [List.foldl_cons]
    exact ih _ (backfillStep_le_limit sorted limit st t h)

theorem backfillStep_unchanged (sorted : List Article) (limit : Nat)
    (st : BackfillState) (tc : String)
    (h : ∀ a ∈ sorted, st.seen_urls.contains a.link = true) :
    backfillStep sorted limit st tc = st := by
  unfold backfillStep
  by_cases hc : st.category_counts tc = 0 ∧ st.unique.length < limit
  · rw [if_pos hc]
    have hnone : sorted.find? (fun a => a.category == tc &&
        !(st.seen_urls.contains a.link) && decide (st.unique.length < limit)) = none := by
      rw [List.find?_eq_none]
      intro a ha
      have hh := h a ha
      intro habs
      simp only [Bool.and_eq_true] at habs
      rw [hh] at habs
      simp at habs
    rw [hnone]
  · rw [if_neg hc]

theorem foldl_backfillStep_unchanged (sorted : List Article) (limit : Nat)
    (st : BackfillState)
    (h : ∀ a ∈ sorted, st.seen_urls.contains a.link = true) :
    ∀ (ts : List String), ts.foldl (backfillStep sorted limit) st = st := by
  intro ts
  induction ts with
  | nil => rfl
  | cons t ts ih =>
    simp only [List.foldl_cons]
    rw [backfillStep_unchanged sorted limit st t h]
    exact ih

theorem backfillStep_preserves (sorted : List Article) (limit : Nat)
    (st : BackfillState) (tc : String)
    (hseen : st.seen_urls = st.unique.map (fun a => a.link))
    (hmem : ∀ a ∈ st.unique, a ∈ sorted)
    (hcnt : ∀ c, st.category_counts c = countCategory st.unique c) :
    (backfillStep sorted limit st tc).seen_urls =
      (backfillStep sorted limit st tc).unique.map (fun a => a.link) ∧
    (∀ a ∈ (backfillStep sorted limit st tc).unique, a ∈ sorted) ∧
    (∀ c, (backfillStep sorted limit st tc).category_counts c =
      countCategory (backfillStep sorted limit st tc).unique c) := by
  unfold backfillStep
  by_cases hc : st.category_counts tc = 0 ∧ st.unique.length < limit
  · rw [if_pos hc]
    cases hf : sorted.find? (fun a => a.category == tc &&
        !(st.seen_urls.contains a.link) && decide (st.unique.length < limit)) with
    | none => exact ⟨hseen, hmem, hcnt⟩
    | some a =>
      have hpred := List.find?_some hf
      simp only [Bool.and_eq_true] at hpred
      have hcat : a.category = tc := by
        have := hpred.1.1
        simpa using this
      refine ⟨?_, ?_, ?_⟩
      · simp only [List.map_append, hseen]
        rfl
      · intro x hx
        rcases List.mem_append.mp hx with hx | hx
        · exact hmem x hx
        · have : x = a := by simpa using hx
          subst this
          exact List.mem_of_find?_eq_some hf
      · intro c
        simp only
        rw [countCategory_append, countCategory_singleton]
        by_cases hctc : c = tc
        · rw [if_pos hctc, hctc]
          rw [if_pos hcat]
          have : countCategory st.unique tc = 0 := by rw [← hcnt]; exact hc.1
          omega
        · rw [if_neg hctc]
          rw [if_neg (by rw [hcat]; exact fun hh => hctc hh.symm)]
          rw [hcnt c]
          omega
  · rw [if_neg hc]
    exact ⟨hseen, hmem, hcnt⟩

theorem backfillStep_cover (sorted : List Article) (limit : Nat)
    (st : BackfillState) (tc : String)
    (hnodup : (sorted.map (fun a => a.link)).Nodup)
    (hseen : st.seen_urls = st.unique.map (fun a => a.link))
    (hmem : ∀ a ∈ st.unique, a ∈ sorted)
    (hcnt : ∀ c, st.category_counts c = countCategory st.unique c)
    (hlen : st.unique.length < limit)
    (hcand : ∃ a ∈ sorted, a.category = tc) :
    ∃ a ∈ (backfillStep sorted limit st tc).unique, a.category = tc := by
  by_cases hc0 : st.category_counts tc = 0
  · unfold backfillStep
    rw [if_pos ⟨hc0, hlen⟩]
    cases hf : sorted.find? (fun a => a.category == tc &&
        !(st.seen_urls.contains a.link) && decide (st.unique.length < limit)) with
    | none =>
      exfalso
      obtain ⟨a0, ha0, hcat0⟩ := hcand
      have hnp := List.find?_eq_none.mp hf a0 ha0
      have hcontains : st.seen_urls.contains a0.link = false := by
        by_contra hcon
        have hcon' : st.seen_urls.contains a0.link = true := by
          cases hx : st.seen_urls.contains a0.link
          · exact absurd hx hcon
          · rfl
        rw [hseen] at hcon'
        have : a0.link ∈ st.unique.map (fun a => a.link) := by
          simpa using hcon'
        obtain ⟨b, hb, hbl⟩ := List.mem_map.mp this
        have hba : b = a0 :=
          List.inj_on_of_nodup_map hnodup (hmem b hb) ha0 hbl
        subst hba
        have : 0 < countCategory st.unique tc :=
          (countCategory_pos_iff _ _).mpr ⟨b, hb, hcat0⟩
        rw [← hcnt tc] at this
        omega
      apply hnp
      simp only [Bool.and_eq_true]
      refine ⟨⟨?_, ?_⟩, ?_⟩
      · exact beq_iff_eq.mpr hcat0
      · rw [hcontains]
        rfl
      · exact decide_eq_true hlen
    | some a =>
      have hpred := List.find?_some hf
      simp only [Bool.and_eq_true] at hpred
      have hcat : a.category = tc := by
        have := hpred.1.1
        simpa using this
      exact ⟨a, by simp, hcat⟩
  · have : 0 < countCategory st.unique tc := by
      have := hcnt tc
      omega
    obtain ⟨a, ha, hcat⟩ := (countCategory_pos_iff _ _).mp this
    obtain ⟨suf, hsuf, _⟩ := backfillStep_extend sorted limit st tc
    exact ⟨a, by rw [hsuf]; exact List.mem_append.mpr (Or.inl ha), hcat⟩

theorem backfill_foldl_cover (sorted : List Article) (limit : Nat)
    (hnodup : (sorted.map (fun a => a.link)).Nodup) :
    ∀ (ts : List String) (st : BackfillState),
    st.seen_urls = st.unique.map (fun a => a.link) →
    (∀ a ∈ st.unique, a ∈ sorted) →
    (∀ c, st.category_counts c = countCategory st.unique c) →
    (ts.foldl (backfillStep sorted limit) st).unique.length < limit →
    (∀ tc ∈ ts, ∃ a ∈ sorted, a.category = tc) →
    ∀ tc ∈ ts, ∃ a ∈ (ts.foldl (backfillStep sorted limit) st).unique,
      a.category = tc := by
  intro ts
  induction ts with
  | nil => intro st _ _ _ _ _ tc htc; simp at htc
  | cons t ts ih =>
    intro st hseen hmem hcnt hfin hcand tc htc
    simp only [List.foldl_cons] at hfin ⊢
    have hP := backfillStep_preserves sorted limit st t hseen hmem hcnt
    obtain ⟨suf, hsuf, _⟩ :=
      foldl_backfillStep_extend sorted limit ts (backfillStep sorted limit st t)
    have hlen_step : (backfillStep sorted limit st t).unique.length < limit := by
      rw [hsuf, List.length_append] at hfin
      omega
    have hlen_st : st.unique.length < limit := by
      obtain ⟨s1, hs1, _⟩ := backfillStep_extend sorted limit st t
      rw [hs1, List.length_append] at hlen_step
      omega
    rcases List.mem_cons.mp htc with heq | htc'
    · subst heq
      obtain ⟨a, ha, hac⟩ := backfillStep_cover sorted limit st tc hnodup hseen hmem
        hcnt hlen_st (hcand tc (List.mem_cons_self tc ts))
      exact ⟨a, by rw [hsuf]; exact List.mem_append.mpr (Or.inl ha), hac⟩
    · exact ih (backfillStep sorted limit st t) hP.1 hP.2.1 hP.2.2 hfin
        (fun c hc => hcand c (List.mem_cons_of_mem t hc)) tc htc'

/-! ## The claims -/

/-- C9: for every article and selection state, the diversity/balance term
of the composite score equals `max(0, 10 − accepted_count_for_category × 3)`
(BASE = 10, DECAY = 3 in the code), and the total score is the sum of the
balance, provenance, category and keyword-intensity terms. -/
theorem C9_score_sum_of_terms (category_counts : String → Nat) (article : Article) :
    calculate_multi_category_score category_counts article =
      balance_bonus category_counts article.category +
        provenance_bonus article.tier + category_bonus article.category +
        keywordBonus article.category (pyLower article.title.data) ∧
    balance_bonus category_counts article.category =
      max 0 (10 - (category_counts article.category : Int) * 3) := by
  constructor
  · simp only [calculate_multi_category_score]
    ring
  · rfl

/-- C6: `get_article_category` returns the category whose keyword list has
the highest number of entries occurring as substrings of the lower-cased
title; ties go to the first category in the fixed order `ai, iot, cloud,
security, dx`; zero matches everywhere yields `"other"`; the function is
total (`classifySpec` is the spec's first-argmax chain). -/
theorem C6_classifier_first_max (title : String) :
    get_article_category title = classifySpec title := by
  unfold get_article_category classifySpec
  exact selectFirstMax (keywordCount ai_keywords (pyLower title.data))
    (keywordCount iot_keywords (pyLower title.data))
    (keywordCount cloud_keywords (pyLower title.data))
    (keywordCount security_keywords (pyLower title.data))
    (keywordCount dx_keywords (pyLower title.data))

/-- C5: if either normalized title is shorter than 10 characters,
`is_similar_content` returns true exactly when the normalized titles are
equal; otherwise it returns true exactly when the `SequenceMatcher` ratio
(which lies in `[0, 1]`) is at least 0.8. -/
theorem C5_similarity_structure (t1 t2 : String) :
    (((normalize_title t1).data.length < 10 ∨ (normalize_title t2).data.length < 10) →
      (is_similar_content t1 t2 = true ↔ normalize_title t1 = normalize_title t2)) ∧
    (10 ≤ (normalize_title t1).data.length → 10 ≤ (normalize_title t2).data.length →
      ((is_similar_content t1 t2 = true ↔
          (4 : ℚ)/5 ≤ ratio (normalize_title t1).data (normalize_title t2).data) ∧
        0 ≤ ratio (normalize_title t1).data (normalize_title t2).data ∧
        ratio (normalize_title t1).data (normalize_title t2).data ≤ 1)) := by
  constructor
  · intro h
    simp only [is_similar_content]
    rw [if_pos h]
    rw [beq_iff_eq]
    exact ⟨fun hh => String.ext_iff.mpr hh, fun hh => String.ext_iff.mp hh⟩
  · intro h1 h2
    have hcond : ¬ ((normalize_title t1).data.length < 10 ∨
        (normalize_title t2).data.length < 10) := by omega
    have hne : (normalize_title t1).data.length + (normalize_title t2).data.length ≠ 0 := by
      omega
    simp only [is_similar_content]
    rw [if_neg hcond]
    refine ⟨?_, ratio_nonneg _ _, ratio_le_one _ _⟩
    rw [decide_eq_true_eq, ratio_threshold_iff _ _ hne]

/-- C5 witness: a concrete pair with normalized length at least 10, where
the similarity holds and the ratio facts are obtained from the theorem. -/
theorem C5_witness :
    is_similar_content "abcdefghjkl" "abcdefghjkl" = true ∧
    (4 : ℚ)/5 ≤ ratio (normalize_title "abcdefghjkl").data
      (normalize_title "abcdefghjkl").data ∧
    ratio (normalize_title "abcdefghjkl").data (normalize_title "abcdefghjkl").data ≤ 1 := by
  have h := (C5_similarity_structure "abcdefghjkl" "abcdefghjkl").2 (by decide) (by decide)
  exact ⟨by decide, h.1.mp (by decide), h.2.2⟩

/-- C3 counterexample: `is_similar_content` is not symmetric.  For the
titles below (normalized length 10 each), the `difflib` matching total is
8 in one order (ratio 0.8 ≥ 0.8) but 5 in the other (ratio 0.5 < 0.8). -/
theorem C3_asymmetry_counterexample :
    is_similar_content "abbbabaabb" "baabbbaabb" = true ∧
      is_similar_content "baabbbaabb" "abbbabaabb" = false := by
  exact ⟨by decide, by decide⟩

/-- C3 amended: `is_similar_content` is symmetric whenever at least one of
the two normalized titles is shorter than 10 characters (the exact-equality
branch); for two long normalized titles the `SequenceMatcher` ratio is
order-dependent and symmetry can fail. -/
theorem C3_amended_short_symmetric (t1 t2 : String)
    (h : (normalize_title t1).data.length < 10 ∨
      (normalize_title t2).data.length < 10) :
    is_similar_content t1 t2 = is_similar_content t2 t1 := by
  have hbeq : ∀ (x y : List Char), (x == y) = (y == x) := by
    intro x y
    by_cases hxy : x = y
    · subst hxy; rfl
    · rw [beq_eq_false_iff_ne.mpr hxy,
        beq_eq_false_iff_ne.mpr (fun hh => hxy hh.symm)]
  simp only [is_similar_content]
  rw [if_pos h, if_pos (Or.symm h)]
  exact hbeq _ _

/-- C3 amended witness. -/
theorem C3_amended_witness :
    (normalize_title "ab").data.length < 10 ∧
      is_similar_content "ab" "cd" = is_similar_content "cd" "ab" :=
  ⟨by decide, C3_amended_short_symmetric "ab" "cd" (Or.inl (by decide))⟩

/-- C4 counterexample: `normalize_title` does not remove half-width (ASCII)
punctuation.  `normalize_title "AI!"` is `"ai!"`, which still contains the
half-width punctuation character `!`. -/
theorem C4_halfwidth_punct_counterexample :
    ('!' ∈ (normalize_title "AI!").data) ∧ isHalfwidthPunctSymbol '!' = true := by
  exact ⟨by decide, by decide⟩

/-- C4 amended: `normalize_title` removes every character of the regex's
CJK/full-width ranges (U+3000-303F, FF01-FF0F, FF1A-FF20, FF3B-FF40,
FF5B-FF65), every ASCII and full-width digit, and all whitespace, and
lower-cases the rest; ASCII punctuation outside those ranges is kept. -/
theorem C4_amended_normalization (title : String) :
    ∀ c ∈ (normalize_title title).data,
      inPunctRange c = false ∧ isDigitChar c = false ∧ isPySpace c = false ∧
        pyLowerChar c = c := by
  intro c hc
  obtain ⟨c0, _, hp, hd, hs, heq⟩ := mem_normalize_title title c hc
  subst heq
  exact pyLowerChar_preserves c0 hp hd hs

/-- C4 amended witness. -/
theorem C4_amended_witness :
    ('a' ∈ (normalize_title "AB1 ！").data) ∧
      (inPunctRange 'a' = false ∧ isDigitChar 'a' = false ∧ isPySpace 'a' = false ∧
        pyLowerChar 'a' = 'a') :=
  ⟨by decide, C4_amended_normalization "AB1 ！" 'a' (by decide)⟩

/-- C10: backfilled articles are only checked for link membership and
category, not fuzzy title similarity: on this input the second article is
rejected by the greedy pass as a title-duplicate of the first, yet the
backfill pass adds it, so the final output holds two articles with
identical (hence ratio-1) normalized titles and different links. -/
theorem C10_backfill_skips_title_dedup :
    fetch_multi_category_news
        [mkArt "tt" "l1" "s1" "ai", mkArt "tt" "l2" "s2" "iot"] 5 =
      [mkArt "tt" "l1" "s1" "ai", mkArt "tt" "l2" "s2" "iot"] ∧
    is_similar_content (mkArt "tt" "l1" "s1" "ai").title
      (mkArt "tt" "l2" "s2" "iot").title = true ∧
    (mkArt "tt" "l1" "s1" "ai").link ≠ (mkArt "tt" "l2" "s2" "iot").link := by
  exact ⟨by decide, by decide, by decide⟩

theorem greedyPass_init_cons (limit : Nat) (x : Article) (rest : List Article) :
    greedyPass limit (x :: rest) initState =
      if (acceptArticle initState x).unique.length ≥ limit then acceptArticle initState x
      else greedyPass limit rest (acceptArticle initState x) := by
  rw [greedyPass_cons]
  rw [if_neg (by intro hh; exact Bool.noConfusion hh)]
  rw [if_neg (by intro hh; exact Bool.noConfusion hh)]
  rw [if_neg (by show ¬ ((0 : Nat) ≥ max_per_source limit); unfold max_per_source; omega)]

theorem greedyPass_init_ne_nil (limit : Nat) (x : Article) (rest : List Article) :
    (greedyPass limit (x :: rest) initState).unique ≠ [] := by
  rw [greedyPass_init_cons]
  by_cases h4 : (acceptArticle initState x).unique.length ≥ limit
  · rw [if_pos h4]
    show ([] ++ [x] : List Article) ≠ []
    simp
  · rw [if_neg h4]
    obtain ⟨suf, hsuf⟩ := greedyPass_extend limit rest (acceptArticle initState x)
    rw [hsuf]
    simp [acceptArticle, initState]

/-- C1 counterexample: with `limit = 5` the per-source cap is
`max(1, 5 // 3) = 1`, yet source `"s"` contributes 2 articles to the final
output because the backfill pass re-admits a capped-out source. -/
theorem C1_per_source_cap_counterexample :
    ¬ (((fetch_multi_category_news
          [mkArt "aa" "l1" "s" "ai", mkArt "bb" "l2" "s" "iot"] 5).filter
        (fun a => a.source == "s")).length ≤ max 1 (5 / 3)) := by
  decide

/-- C1 amended: the greedy pass respects the per-source cap
`max(1, limit // 3)`, and the backfill pass adds at most one article per
target category (5 in total) without checking the cap, so no source
contributes more than `max(1, limit // 3) + 5` articles to the final
output. -/
theorem C1_amended_per_source_cap (articles : List Article) (limit : Nat)
    (s : String) :
    (((fetch_multi_category_news articles limit).filter
        (fun a => a.source == s)).length) ≤ max 1 (limit / 3) + 5 := by
  simp only [fetch_multi_category_news]
  set sorted := sortByScoreDesc articles with hsorted
  set g := greedyPass limit sorted initState with hg
  have hinit : ∀ s', initState.source_count s' =
      ((initState.unique.filter (fun a => a.source == s')).length) ∧
      initState.source_count s' ≤ max_per_source limit := by
    intro s'
    refine ⟨rfl, ?_⟩
    show (0 : Nat) ≤ max_per_source limit
    omega
  have hcap := greedyPass_source_cap limit sorted initState hinit s
  rw [← hg] at hcap
  by_cases hlen : g.unique.length < limit
  · rw [if_pos hlen]
    unfold backfillPass
    set st0 : BackfillState := { seen_urls := g.seen_urls, unique := g.unique, category_counts := fun c => countCategory g.unique c } with hst0
    obtain ⟨suf, hsuf, hsl⟩ := foldl_backfillStep_extend sorted limit target_categories st0
    have hproj : st0.unique = g.unique := rfl
    rw [hproj] at hsuf
    rw [hsuf]
    have hsuf5 : suf.length ≤ 5 := by
      simpa [target_categories] using hsl
    have hfle : ((suf.filter (fun a => a.source == s)).length) ≤ suf.length :=
      List.length_filter_le _ _
    rw [List.filter_append, List.length_append]
    unfold max_per_source at hcap
    omega
  · rw [if_neg hlen]
    unfold max_per_source at hcap
    omega

/-- C7 counterexample: with `limit = 0` and a nonempty input the greedy
pass still accepts the first article before testing the limit, so the
output has length 1 > 0 = limit. -/
theorem C7_limit_zero_counterexample :
    ¬ ((fetch_multi_category_news [mkArt "aa" "l1" "s" "ai"] 0).length ≤ 0) := by
  decide

/-- C7 amended: for every positive limit the output length is at most
`limit`; the output is empty only when the input list is empty (the
pipeline applies no filtering — line 392 keeps all articles — so "all
articles filtered out" cannot occur on a nonempty input).  For
`limit = 0` the length bound fails, because the greedy pass checks the
limit only after accepting an article. -/
theorem C7_amended_limit_invariant (articles : List Article) (limit : Nat)
    (hpos : 1 ≤ limit) :
    (fetch_multi_category_news articles limit).length ≤ limit ∧
      (fetch_multi_category_news articles limit = [] → articles = []) := by
  constructor
  · simp only [fetch_multi_category_news]
    set sorted := sortByScoreDesc articles with hsorted
    set g := greedyPass limit sorted initState with hg
    have hglen : g.unique.length ≤ limit := by
      rw [hg]
      apply greedyPass_length_le
      show ([] : List Article).length < limit
      simpa using hpos
    by_cases hlen : g.unique.length < limit
    · rw [if_pos hlen]
      unfold backfillPass
      exact foldl_backfillStep_le_limit sorted limit target_categories _ (le_of_lt hlen)
    · rw [if_neg hlen]
      exact hglen
  · intro hout
    by_contra hne
    have hsne : sortByScoreDesc articles ≠ [] := by
      intro hs
      have hl := (sortByScoreDesc_perm articles).length_eq
      rw [hs] at hl
      exact hne (List.eq_nil_of_length_eq_zero hl.symm)
    obtain ⟨x, rest, hxr⟩ : ∃ x rest, sortByScoreDesc articles = x :: rest := by
      cases hs : sortByScoreDesc articles with
      | nil => exact absurd hs hsne
      | cons x rest => exact ⟨x, rest, rfl⟩
    simp only [fetch_multi_category_news] at hout
    rw [hxr] at hout
    by_cases hlen : (greedyPass limit (x :: rest) initState).unique.length < limit
    · rw [if_pos hlen] at hout
      unfold backfillPass at hout
      obtain ⟨suf, hsuf, _⟩ := foldl_backfillStep_extend (x :: rest) limit
        target_categories
        { seen_urls := (greedyPass limit (x :: rest) initState).seen_urls,
          unique := (greedyPass limit (x :: rest) initState).unique,
          category_counts := fun c =>
            countCategory (greedyPass limit (x :: rest) initState).unique c }
      rw [hsuf] at hout
      rcases List.append_eq_nil.mp hout with ⟨h1, _⟩
      exact greedyPass_init_ne_nil limit x rest h1
    · rw [if_neg hlen] at hout
      exact greedyPass_init_ne_nil limit x rest hout

/-- C7 amended witness. -/
theorem C7_amended_witness :
    (fetch_multi_category_news [mkArt "aa" "l1" "s" "ai"] 8).length ≤ 8 ∧
      (fetch_multi_category_news [mkArt "aa" "l1" "s" "ai"] 8 = [] →
        [mkArt "aa" "l1" "s" "ai"] = ([] : List Article)) :=
  C7_amended_limit_invariant [mkArt "aa" "l1" "s" "ai"] 8 (by decide)

/-- C2 counterexample: `limit = 5 ≥ 5` target categories, one candidate of
every target category is present, yet the greedy pass fills all 5 slots
(one `ai` article plus four `other` articles; the remaining category
candidates are capped out by the shared source `"s"`), so the backfill
pass never runs and `iot` is absent from the output. -/
theorem C2_category_coverage_counterexample :
    (5 ≥ target_categories.length) ∧
    (∀ tc ∈ target_categories,
      ∃ a ∈ [mkArt "aa" "l1" "s" "ai", mkArt "bb" "l2" "s" "iot",
        mkArt "cc" "l3" "s" "cloud", mkArt "dd" "l4" "s" "security",
        mkArt "ee" "l5" "s" "dx", mkArt "ff" "m1" "p1" "other",
        mkArt "gg" "m2" "p2" "other", mkArt "hh" "m3" "p3" "other",
        mkArt "ii" "m4" "p4" "other"], a.category = tc) ∧
    ¬ (∀ tc ∈ target_categories,
      ∃ a ∈ fetch_multi_category_news
        [mkArt "aa" "l1" "s" "ai", mkArt "bb" "l2" "s" "iot",
         mkArt "cc" "l3" "s" "cloud", mkArt "dd" "l4" "s" "security",
         mkArt "ee" "l5" "s" "dx", mkArt "ff" "m1" "p1" "other",
         mkArt "gg" "m2" "p2" "other", mkArt "hh" "m3" "p3" "other",
         mkArt "ii" "m4" "p4" "other"] 5, a.category = tc) := by
  exact ⟨by decide, by decide, by decide⟩

/-- C2 amended: if the input's links are pairwise distinct, at least one
candidate of every target category exists, and the final output is
strictly shorter than `limit` (so the backfill pass runs and is never cut
off by the limit), then every target category appears in the output.  The
counterexample shows the extra premises are necessary: coverage fails when
the greedy pass already reaches `limit`, and a shared link can likewise
block the backfill scan. -/
theorem C2_amended_category_coverage (articles : List Article) (limit : Nat)
    (_hlim : target_categories.length ≤ limit)
    (hnodup : (articles.map (fun a => a.link)).Nodup)
    (hcand : ∀ tc ∈ target_categories, ∃ a ∈ articles, a.category = tc)
    (hunder : (fetch_multi_category_news articles limit).length < limit) :
    ∀ tc ∈ target_categories,
      ∃ a ∈ fetch_multi_category_news articles limit, a.category = tc := by
  have hperm := sortByScoreDesc_perm articles
  have hnodup' : ((sortByScoreDesc articles).map (fun a => a.link)).Nodup :=
    ((hperm.map (fun a => a.link)).nodup_iff).mpr hnodup
  have hcand' : ∀ tc ∈ target_categories,
      ∃ a ∈ sortByScoreDesc articles, a.category = tc := by
    intro tc htc
    obtain ⟨a, ha, hac⟩ := hcand tc htc
    exact ⟨a, hperm.mem_iff.mpr ha, hac⟩
  simp only [fetch_multi_category_news] at hunder ⊢
  set sorted := sortByScoreDesc articles with hsorted
  set g := greedyPass limit sorted initState with hg
  by_cases hlen : g.unique.length < limit
  · rw [if_pos hlen] at hunder ⊢
    unfold backfillPass at hunder ⊢
    refine backfill_foldl_cover sorted limit hnodup' target_categories
      { seen_urls := g.seen_urls, unique := g.unique,
        category_counts := fun c => countCategory g.unique c }
      ?_ ?_ ?_ hunder hcand'
    · show g.seen_urls = g.unique.map (fun a => a.link)
      rw [hg]
      exact greedyPass_seen limit sorted initState rfl
    · intro a ha
      rcases greedyPass_mem limit sorted initState a ha with h | h
      · exact absurd h (List.not_mem_nil a)
      · exact h
    · intro c
      rfl
  · rw [if_neg hlen] at hunder
    omega

/-- C2 amended witness: five distinct-source, distinct-link articles (one
per target category) with `limit = 8`; the output has length 5 < 8 and in
particular covers the `iot` category. -/
theorem C2_amended_witness :
    0 < countCategory (fetch_multi_category_news
      [mkArt "aa" "l1" "q1" "ai", mkArt "bb" "l2" "q2" "iot",
       mkArt "cc" "l3" "q3" "cloud", mkArt "dd" "l4" "q4" "security",
       mkArt "ee" "l5" "q5" "dx"] 8) "iot" := by
  have h := C2_amended_category_coverage
    [mkArt "aa" "l1" "q1" "ai", mkArt "bb" "l2" "q2" "iot",
     mkArt "cc" "l3" "q3" "cloud", mkArt "dd" "l4" "q4" "security",
     mkArt "ee" "l5" "q5" "dx"] 8 (by decide) (by decide) (by decide) (by decide)
    "iot" (by decide)
  exact (countCategory_pos_iff _ _).mpr h

/-- C8: for an input of exactly three articles sharing one link (with
pairwise different titles), the output is exactly the first article of the
pipeline's descending score order: the greedy pass accepts it and rejects
the other two on the exact-link check, and the backfill pass cannot add
anything because the shared link is already seen. -/
theorem C8_same_link_collapse (a b c : Article) (limit : Nat)
    (hab : a.link = b.link) (hac : a.link = c.link)
    (htab : a.title ≠ b.title) (htac : a.title ≠ c.title) (htbc : b.title ≠ c.title) :
    fetch_multi_category_news [a, b, c] limit =
      (sortByScoreDesc [a, b, c]).take 1 := by
  have hperm := sortByScoreDesc_perm [a, b, c]
  have hlink : ∀ y ∈ sortByScoreDesc [a, b, c], y.link = a.link := by
    intro y hy
    have hm := hperm.mem_iff.mp hy
    simp only [List.mem_cons, List.not_mem_nil, or_false] at hm
    rcases hm with h | h | h <;> subst h
    · rfl
    · exact hab.symm
    · exact hac.symm
  obtain ⟨x, rest, hxr⟩ : ∃ x rest, sortByScoreDesc [a, b, c] = x :: rest := by
    cases hs : sortByScoreDesc [a, b, c] with
    | nil =>
      exfalso
      have hl := hperm.length_eq
      rw [hs] at hl
      simp at hl
    | cons x rest => exact ⟨x, rest, rfl⟩
  have hxl : x.link = a.link := hlink x (by rw [hxr]; exact List.mem_cons_self x rest)
  have hrestl : ∀ y ∈ rest, y.link = x.link := by
    intro y hy
    rw [hlink y (by rw [hxr]; exact List.mem_cons_of_mem x hy), hxl]
  have hseenx : ∀ y ∈ rest,
      (acceptArticle initState x).seen_urls.contains y.link = true := by
    intro y hy
    show (([] : List String) ++ [x.link]).contains y.link = true
    rw [hrestl y hy]
    simp
  simp only [fetch_multi_category_news]
  rw [hxr, greedyPass_init_cons]
  by_cases h4 : (acceptArticle initState x).unique.length ≥ limit
  · rw [if_pos h4]
    have hnot : ¬ ((acceptArticle initState x).unique.length < limit) := by omega
    rw [if_neg hnot]
    show ([] ++ [x] : List Article) = (x :: rest).take 1
    simp
  · rw [if_neg h4]
    rw [greedyPass_allseen limit rest (acceptArticle initState x) hseenx]
    have hlt : (acceptArticle initState x).unique.length < limit := by omega
    rw [if_pos hlt]
    unfold backfillPass
    rw [foldl_backfillStep_unchanged (x :: rest) limit _ ?_ target_categories]
    · show ([] ++ [x] : List Article) = (x :: rest).take 1
      simp
    · intro y hy
      show (acceptArticle initState x).seen_urls.contains y.link = true
      rcases List.mem_cons.mp hy with heq | hy'
      · subst heq
        show (([] : List String) ++ [y.link]).contains y.link = true
        simp
      · exact hseenx y hy'

/-- C8 witness: three concrete articles with one link; the output is the
take-1 of the sorted list, which is the highest-scored (`ai`) article. -/
theorem C8_witness :
    fetch_multi_category_news
        [mkArt "aa" "l1" "s1" "ai", mkArt "bb" "l1" "s2" "iot",
         mkArt "cc" "l1" "s3" "cloud"] 8 =
      (sortByScoreDesc [mkArt "aa" "l1" "s1" "ai", mkArt "bb" "l1" "s2" "iot",
        mkArt "cc" "l1" "s3" "cloud"]).take 1 ∧
    (sortByScoreDesc [mkArt "aa" "l1" "s1" "ai", mkArt "bb" "l1" "s2" "iot",
      mkArt "cc" "l1" "s3" "cloud"]).take 1 = [mkArt "aa" "l1" "s1" "ai"] :=
  ⟨C8_same_link_collapse (mkArt "aa" "l1" "s1" "ai") (mkArt "bb" "l1" "s2" "iot")
    (mkArt "cc" "l1" "s3" "cloud") 8 rfl rfl (by decide) (by decide) (by decide),
   by decide⟩
